import Mathlib

/-!
Shallow embedding of the two-pass immediate-mode GUI engine in
`src/imgui.cpp` and the button edge tracker in `src/input.cpp`
(pienoon repository), together with theorems settling the frozen claims
about this code.

Modelling conventions:
* `vec2i` (mathfu, integer 2-vector) becomes the structure `Vec2i` with
  `Int` components.
* C++ `float` values (virtual sizes, pixel scale, virtual resolution)
  are modelled as exact rationals `ℚ`; the `static_cast<int>` performed
  by the `vec2i` constructor truncates toward zero, modelled by `truncQ`.
* C++ integer division `/` truncates toward zero, modelled by `Int.tdiv`.
* The element cache `std::vector<Element>` becomes `List Element`; the
  read iterator `element_it_` becomes a `Nat` index.
* `assert` failures and the texture-lookup assert become `Option.none`
  in the step functions (`none` = fatal precondition violation).
-/

set_option autoImplicit false

namespace Imgui

/-- mathfu `vec2i`: a 2-vector of machine integers. -/
structure Vec2i where
  x : Int
  y : Int
  deriving DecidableEq, Repr

instance : Zero Vec2i := ⟨⟨0, 0⟩⟩

instance : Add Vec2i := ⟨fun a b => ⟨a.x + b.x, a.y + b.y⟩⟩

instance : Sub Vec2i := ⟨fun a b => ⟨a.x - b.x, a.y - b.y⟩⟩

/-- Component access `v[dim]` for `dim ∈ {0, 1}` (0 = x, 1 = y). -/
def Vec2i.nth (v : Vec2i) (dim : Fin 2) : Int :=
  if dim = 0 then v.x else v.y

/-- Build the vector whose `dim` component is `a` and whose other
component is `0` (the shape produced by `AlignDimension`). -/
def Vec2i.single (dim : Fin 2) (a : Int) : Vec2i :=
  if dim = 0 then ⟨a, 0⟩ else ⟨0, a⟩

/-- C++ `std::max` on int. -/
def imax (a b : Int) : Int :=
  if a < b then b else a

/-- C++ `std::min` on float, on exact rationals. -/
def qmin (a b : ℚ) : ℚ :=
  if b < a then b else a

/-- Exact rational multiplication, written on numerator/denominator via
`Rat.divInt` so that it evaluates inside the kernel (the library's
`Rat.mul` is irreducible). Provably equal to `a * b` (`qmul_eq`). -/
def qmul (a b : ℚ) : ℚ :=
  Rat.divInt (a.num * b.num) (a.den * b.den)

/-- Exact rational division via `Rat.divInt`; equal to `a / b`
(`qdiv_eq`). -/
def qdiv (a b : ℚ) : ℚ :=
  Rat.divInt (a.num * b.den) (a.den * b.num)

/-- Exact rational addition via `Rat.divInt`; equal to `a + b`
(`qadd_eq`). -/
def qadd (a b : ℚ) : ℚ :=
  Rat.divInt (a.num * b.den + b.num * a.den) (a.den * b.den)

/-- The rational value of a machine integer; equal to `(n : ℚ)`
(`intQ_eq`). -/
def intQ (n : Int) : ℚ :=
  Rat.divInt n 1

/-- The constant `0.5f`. -/
def qhalf : ℚ :=
  Rat.divInt 1 2

/-- C++ `static_cast<int>` on a float: truncation toward zero
(`num.tdiv den` is the numerator/denominator division truncated toward
zero, which is exactly the cast's behaviour). -/
def truncQ (q : ℚ) : Int :=
  Int.tdiv q.num q.den

/-- `enum Alignment` from `imgui.cpp`. -/
inductive Alignment where
  | topleft
  | center
  | bottomright
  deriving DecidableEq, Repr

/-- `InternalState::AlignDimension`: a space offset for one alignment,
affecting only the `dim` component of the result. -/
def alignDimension (align : Alignment) (dim : Fin 2) (space : Vec2i) : Vec2i :=
  match align with
  | .topleft => ⟨0, 0⟩
  | .center => Vec2i.single dim (Int.tdiv (space.nth dim) 2)
  | .bottomright => Vec2i.single dim (space.nth dim)

/-- `class Group`: transient per-nesting-level layout state. -/
structure Group where
  vertical : Bool
  align : Alignment
  spacing : Int
  size : Vec2i
  position : Vec2i
  element_idx : Nat
  deriving DecidableEq, Repr

/-- `Group::Extend`: grow the accumulated size by a new element's size,
adding `spacing` along the stacking axis when the accumulated size on
that axis is nonzero, and taking the max along the cross axis. -/
def Group.extend (g : Group) (extension : Vec2i) : Group :=
  { g with size :=
      if g.vertical then
        ⟨imax g.size.x extension.x,
         g.size.y + extension.y + (if g.size.y ≠ 0 then g.spacing else 0)⟩
      else
        ⟨g.size.x + extension.x + (if g.size.x ≠ 0 then g.spacing else 0),
         imax g.size.y extension.y⟩ }

/-- `InternalState::Advance`: move the group cursor past an element of
the given size along the stacking axis. -/
def Group.advance (g : Group) (size : Vec2i) : Group :=
  { g with position := g.position +
      (if g.vertical then ⟨0, size.y + g.spacing⟩ else ⟨size.x + g.spacing, 0⟩) }

/-- `InternalState::Element`: one cached (identity, size) pair. -/
structure Element where
  id : String
  size : Vec2i
  deriving DecidableEq, Repr

/-- `InternalState::Position`: the current element's position from the
group cursor and the cross-axis alignment slack. -/
def Group.positionOf (g : Group) (e : Element) : Vec2i :=
  g.position + alignDimension g.align (if g.vertical then 0 else 1) (g.size - e.size)

/-- First element of a list whose identity matches, together with its
index in that list (the scanning loop of `NextElement`). -/
def findFirst (id : String) : List Element → Option (Element × Nat)
  | [] => none
  | e :: es =>
    if e.id = id then some (e, 0)
    else (findFirst id es).map (fun p => (p.1, p.2 + 1))

/-- `InternalState::NextElement`: scan the cache from the read cursor
for the first entry matching `id`; on a hit return the entry and the
cursor one past it, on a miss return `none` (the C++ code then restores
the cursor to its pre-call value). -/
def nextElement (es : List Element) (cur : Nat) (id : String) :
    Option (Element × Nat) :=
  (findFirst id (es.drop cur)).map (fun p => (p.1, cur + p.2 + 1))

/-- The read cursor after a `NextElement` call: one past the hit, or
restored to the pre-call position on a miss. -/
def nextCursor (es : List Element) (cur : Nat) (id : String) : Nat :=
  match nextElement es cur id with
  | some (_, it) => it
  | none => cur

/-- A quad draw call issued by `Mesh::RenderAAQuadAlongX`, recorded as
the top-left corner and the size (the C++ call receives the corners
`position` and `position + size`). -/
structure Draw where
  pos : Vec2i
  size : Vec2i
  deriving DecidableEq, Repr

/-- The reserved identity of group placeholder elements. -/
def groupId : String := "__group__"

/-- `class InternalState` (including its `Group` base subobject, here
the field `cur`), plus the list of draw calls it has issued. The
renderer's window size is fixed for the duration of one run and kept as
a field. -/
structure State where
  layout_pass : Bool
  elements : List Element
  element_it : Nat
  group_stack : List Group
  cur : Group
  canvas_size : Vec2i
  virtual_resolution : ℚ
  pixel_scale : ℚ
  window_size : Vec2i
  draws : List Draw
  deriving DecidableEq, Repr

/-- `InternalState::SetScale`: the uniform pixel scale derived from the
renderer's window size and the virtual resolution. -/
def setScale (window : Vec2i) (vres : ℚ) : ℚ :=
  qmin (qdiv (intQ window.x) vres) (qdiv (intQ window.y) vres)

/-- The size in device pixels of an image of virtual height `ysize`
backed by a texture of pixel size `texSize` (layout branch of
`InternalState::Image`): aspect-preserving virtual size, scaled by the
pixel scale, rounded by adding 0.5 and casting to int. -/
def computeImageSize (texSize : Vec2i) (ysize : ℚ) (scale : ℚ) : Vec2i :=
  ⟨truncQ (qadd (qmul (qdiv (qmul (intQ texSize.x) ysize) (intQ texSize.y)) scale) qhalf),
   truncQ (qadd (qmul ysize scale) qhalf)⟩

/-- `InternalState::Image`. The texture map `tex` models the material
manager: `none` means `FindTexture` fails and the assert fires. -/
def State.image (tex : String → Option Vec2i) (s : State)
    (name : String) (ysize : ℚ) : Option State :=
  match tex name with
  | none => none
  | some ts =>
    if s.layout_pass then
      let size := computeImageSize ts ysize s.pixel_scale
      some { s with elements := s.elements ++ [⟨name, size⟩],
                    cur := s.cur.extend size }
    else
      match nextElement s.elements s.element_it name with
      | some (e, it) =>
        some { s with element_it := it,
                      draws := s.draws ++ [⟨s.cur.positionOf e, e.size⟩],
                      cur := s.cur.advance e.size }
      | none => some s

/-- `InternalState::StartGroup`: push the current group, then install a
fresh group frame (in the render pass, seeded with the placeholder's
cached position and size when the placeholder is found). -/
def State.startGroup (s : State) (vertical : Bool) (align : Alignment)
    (spacing : Int) : State :=
  let layout : Group :=
    ⟨vertical, align, spacing, ⟨0, 0⟩, ⟨0, 0⟩, s.elements.length⟩
  if s.layout_pass then
    { s with group_stack := s.cur :: s.group_stack,
             elements := s.elements ++ [⟨groupId, ⟨0, 0⟩⟩],
             cur := layout }
  else
    match nextElement s.elements s.element_it groupId with
    | some (e, it) =>
      { s with group_stack := s.cur :: s.group_stack,
               element_it := it,
               cur := { layout with position := s.cur.positionOf e,
                                    size := e.size } }
    | none =>
      { s with group_stack := s.cur :: s.group_stack, cur := layout }

/-- `elements_[idx].size = size`: back-fill the size of the element at
`idx`, keeping its identity. -/
def setElemSize : List Element → Nat → Vec2i → List Element
  | [], _, _ => []
  | e :: es, 0, sz => { e with size := sz } :: es
  | e :: es, n + 1, sz => e :: setElemSize es n sz

/-- `InternalState::EndGroup`: pop the parent frame; in the layout pass
extend the parent by this group's size and back-fill the placeholder,
in the render pass advance the parent's cursor. `none` models the
assert on an empty group stack. -/
def State.endGroup (s : State) : Option State :=
  match s.group_stack with
  | [] => none
  | parent :: rest =>
    let size := s.cur.size
    let idx := s.cur.element_idx
    if s.layout_pass then
      some { s with cur := parent.extend size,
                    group_stack := rest,
                    elements := setElemSize s.elements idx size }
    else
      some { s with cur := parent.advance size, group_stack := rest }

/-- `InternalState::PositionUI`: in the layout pass capture canvas size
and virtual resolution and recompute the pixel scale (from the window
size, as `SetScale` does); in the render pass offset the root cursor by
the alignment of the whole UI inside the canvas. -/
def State.positionUI (s : State) (canvas : Vec2i) (vres : ℚ)
    (horizontal vertical : Alignment) : State :=
  if s.layout_pass then
    { s with canvas_size := canvas,
             virtual_resolution := vres,
             pixel_scale := setScale s.window_size vres }
  else
    let space := s.canvas_size - s.cur.size
    let pos := s.cur.position + alignDimension horizontal 0 space +
      alignDimension vertical 1 space
    { s with cur := { s.cur with position := pos } }

/-- `InternalState::StartRenderPass`: assert the group stack is empty,
seed the whole-UI size from `elements_[0]`, flip the pass flag and reset
the read cursor. `none` covers both the assert and the unguarded
`elements_[0]` access on an empty cache. -/
def State.startRenderPass (s : State) : Option State :=
  match s.group_stack with
  | _ :: _ => none
  | [] =>
    match s.elements with
    | [] => none
    | e :: _ =>
      some { s with cur := { s.cur with size := e.size },
                    layout_pass := false,
                    element_it := 0 }

/-- One call made by the GUI description procedure. -/
inductive Op where
  | image (name : String) (ysize : ℚ)
  | startGroup (vertical : Bool) (align : Alignment) (spacing : Int)
  | endGroup
  | positionUI (canvas : Vec2i) (vres : ℚ) (horizontal vertical : Alignment)
  deriving DecidableEq, Repr

/-- Dispatch one call against the engine state. -/
def step (tex : String → Option Vec2i) (s : State) : Op → Option State
  | .image n y => s.image tex n y
  | .startGroup v a sp => some (s.startGroup v a sp)
  | .endGroup => s.endGroup
  | .positionUI c r h v => some (s.positionUI c r h v)

/-- Run the description procedure (a list of calls) from a state. -/
def runOps (tex : String → Option Vec2i) (s : State) : List Op → Option State
  | [] => some s
  | op :: ops =>
    match step tex s op with
    | none => none
    | some s' => runOps tex s' ops

/-- The state built by the `InternalState` constructor: root group
`Group(true, ALIGN_TOPLEFT, 0, 0)`, layout pass, canvas size from the
renderer's window size, the default virtual resolution `vres`
(`IMGUI_DEFAULT_VIRTUAL_RESOLUTION`, declared in the header outside
this repository slice, hence a parameter), and the derived scale. -/
def initState (window : Vec2i) (vres : ℚ) : State :=
  { layout_pass := true
    elements := []
    element_it := 0
    group_stack := []
    cur := ⟨true, .topleft, 0, ⟨0, 0⟩, ⟨0, 0⟩, 0⟩
    canvas_size := window
    virtual_resolution := vres
    pixel_scale := setScale window vres
    window_size := window
    draws := [] }

/-- `Run`: invoke the description once for layout, transition with
`StartRenderPass`, invoke it again for rendering. -/
def runFull (tex : String → Option Vec2i) (window : Vec2i) (vres : ℚ)
    (script : List Op) : Option State :=
  match runOps tex (initState window vres) script with
  | none => none
  | some s =>
    match s.startRenderPass with
    | none => none
    | some s' => runOps tex s' script

/-- The identity appended to the element cache by one layout-pass call,
if any: `Image` appends its texture name, `StartGroup` the reserved
group identity. -/
def opDeclId : Op → Option String
  | .image n _ => some n
  | .startGroup _ _ _ => some groupId
  | .endGroup => none
  | .positionUI _ _ _ _ => none

/-- The `Group` constructor: fresh group with zero size and position. -/
def mkGroup (vertical : Bool) (align : Alignment) (spacing : Int)
    (element_idx : Nat) : Group :=
  ⟨vertical, align, spacing, ⟨0, 0⟩, ⟨0, 0⟩, element_idx⟩

/-- A sequence of `Extend` calls against one group. -/
def Group.extendList (g : Group) (l : List Vec2i) : Group :=
  l.foldl Group.extend g

/-- The component of a vector along the stacking axis of an
orientation (`true` = vertical). -/
def stackVal (vertical : Bool) (v : Vec2i) : Int :=
  if vertical then v.y else v.x

/-- The component of a vector along the cross axis of an orientation. -/
def crossVal (vertical : Bool) (v : Vec2i) : Int :=
  if vertical then v.x else v.y

/-- Stacking two sizes in a vertical group with spacing `sp`: the size
after `Extend`-ing a vertical group of accumulated size `u` by `v`. -/
def vstack (sp : Int) (u v : Vec2i) : Vec2i :=
  (Group.extend ⟨true, .topleft, sp, u, ⟨0, 0⟩, 0⟩ v).size

/-- Texture environment of the concrete scenario: one texture of pixel
size 200×100 (source aspect ratio 2:1). -/
def c7tex : String → Option Vec2i :=
  fun n => if n = "img" then some ⟨200, 100⟩ else none

/-- Description procedure of the concrete scenario: one vertical group,
spacing 20, three images of virtual heights 50, 40, 30. -/
def c7script : List Op :=
  [.startGroup true .topleft 20, .image "img" 50, .image "img" 40,
   .image "img" 30, .endGroup]

/-- Texture environment with no textures loaded. -/
def c9tex : String → Option Vec2i := fun _ => none

/-- A description procedure declaring one (empty, balanced) group. -/
def c9script : List Op := [.startGroup true .topleft 0, .endGroup]

/-- The state after the layout pass of `c9script`. -/
def c9state : State :=
  (runOps c9tex (initState ⟨8, 8⟩ 100) c9script).getD (initState ⟨8, 8⟩ 100)

end Imgui

namespace Input

/-- `class Button` from `input.cpp`: per-frame edge-tracking state. -/
structure Button where
  is_down : Bool
  went_down : Bool
  went_up : Bool
  deriving DecidableEq, Repr

/-- `Button::Update`: record an edge transition flag, then latch the
current level. -/
def Button.update (b : Button) (down : Bool) : Button :=
  if !b.is_down && down then
    { b with went_down := true, is_down := down }
  else if b.is_down && !down then
    { b with went_up := true, is_down := down }
  else
    { b with is_down := down }

/-- Fold a sequence of `Update` calls over a button. -/
def Button.updates (b : Button) (l : List Bool) : Button :=
  l.foldl Button.update b

/-- Whether a rising edge (up, then down) occurs in the level sequence
`prev :: l`. -/
def hasDownEdge : Bool → List Bool → Bool
  | _, [] => false
  | prev, d :: ds => (!prev && d) || hasDownEdge d ds

/-- Whether a falling edge (down, then up) occurs in the level sequence
`prev :: l`. -/
def hasUpEdge : Bool → List Bool → Bool
  | _, [] => false
  | prev, d :: ds => (prev && !d) || hasUpEdge d ds

/-- The level after a sequence of updates: the last sample, or the
previous level for an empty sequence. -/
def lastLevel : Bool → List Bool → Bool
  | prev, [] => prev
  | _, d :: ds => lastLevel d ds

end Input

open Imgui Input

/-! ## Basic lemmas about the embedding's arithmetic helpers -/

lemma vec2i_ext (a b : Vec2i) (hx : a.x = b.x) (hy : a.y = b.y) : a = b := by
  cases a; cases b; simp_all

lemma imax_eq (a b : Int) : imax a b = max a b := by
  unfold imax
  split
  · exact (max_eq_right (le_of_lt (by assumption))).symm
  · exact (max_eq_left (not_lt.mp (by assumption))).symm

lemma qmin_eq (a b : ℚ) : qmin a b = min a b := by
  unfold qmin
  rcases lt_or_le b a with h | h
  · rw [if_pos h, min_eq_right h.le]
  · rw [if_neg (not_lt.mpr h), min_eq_left h]

lemma intQ_eq (n : Int) : intQ n = (n : ℚ) := by
  simp [intQ, Rat.divInt_eq_div]

lemma qdiv_eq (a b : ℚ) : qdiv a b = a / b :=
  (Rat.div_def' a b).symm

lemma qmul_eq (a b : ℚ) : qmul a b = a * b := by
  unfold qmul
  conv_rhs => rw [← Rat.num_divInt_den a, ← Rat.num_divInt_den b]
  rw [Rat.divInt_mul_divInt']

lemma qadd_eq (a b : ℚ) : qadd a b = a + b := by
  unfold qadd
  conv_rhs => rw [← Rat.num_divInt_den a, ← Rat.num_divInt_den b]
  rw [Rat.divInt_add_divInt _ _ (by exact_mod_cast a.den_nz) (by exact_mod_cast b.den_nz)]

/-! ## Lemmas about `Group.extend` -/

lemma extend_vertical (g : Group) (v : Vec2i) : (g.extend v).vertical = g.vertical := rfl

lemma extend_spacing (g : Group) (v : Vec2i) : (g.extend v).spacing = g.spacing := rfl

lemma extend_stack (g : Group) (v : Vec2i) :
    stackVal g.vertical (g.extend v).size =
      stackVal g.vertical g.size + stackVal g.vertical v +
        (if stackVal g.vertical g.size ≠ 0 then g.spacing else 0) := by
  cases hv : g.vertical <;> simp [Group.extend, stackVal, hv]

lemma extend_cross (g : Group) (v : Vec2i) :
    crossVal g.vertical (g.extend v).size =
      max (crossVal g.vertical g.size) (crossVal g.vertical v) := by
  cases hv : g.vertical <;> simp [Group.extend, crossVal, stackVal, hv, imax_eq]

lemma extendList_cons (g : Group) (v : Vec2i) (l : List Vec2i) :
    g.extendList (v :: l) = (g.extend v).extendList l := rfl

lemma extendList_vertical (g : Group) (l : List Vec2i) :
    (g.extendList l).vertical = g.vertical := by
  induction l generalizing g with
  | nil => rfl
  | cons v l ih => rw [extendList_cons, ih, extend_vertical]

lemma extendList_spacing (g : Group) (l : List Vec2i) :
    (g.extendList l).spacing = g.spacing := by
  induction l generalizing g with
  | nil => rfl
  | cons v l ih => rw [extendList_cons, ih, extend_spacing]

lemma extendList_stack_pos (l : List Vec2i) (g : Group) (hsp : 0 ≤ g.spacing)
    (hl : ∀ v ∈ l, 0 < stackVal g.vertical v)
    (hg : 0 < stackVal g.vertical g.size) :
    0 < stackVal g.vertical (g.extendList l).size := by
  induction l generalizing g with
  | nil => exact hg
  | cons v l ih =>
    rw [extendList_cons, ← extend_vertical g v]
    refine ih (g.extend v) (by rw [extend_spacing]; exact hsp) ?_ ?_
    · intro w hw
      rw [extend_vertical]
      exact hl w (List.mem_cons_of_mem _ hw)
    · rw [extend_vertical, extend_stack]
      have h1 : 0 < stackVal g.vertical v := hl v (List.mem_cons_self v l)
      have h2 : (if stackVal g.vertical g.size ≠ 0 then g.spacing else 0) ≥ 0 := by
        split
        · exact hsp
        · exact le_refl 0
      omega

lemma extendList_nil (g : Group) : g.extendList [] = g := rfl

lemma extend_y (g : Group) (hv : g.vertical = true) (v : Vec2i) :
    (g.extend v).size.y = g.size.y + v.y + (if g.size.y ≠ 0 then g.spacing else 0) := by
  simp [Group.extend, hv]

lemma extend_x (g : Group) (hv : g.vertical = true) (v : Vec2i) :
    (g.extend v).size.x = max g.size.x v.x := by
  simp [Group.extend, hv, imax_eq]

lemma stackVal_true (v : Vec2i) : stackVal true v = v.y := rfl

lemma crossVal_true (v : Vec2i) : crossVal true v = v.x := rfl

lemma vstack_x (s : Int) (u v : Vec2i) : (vstack s u v).x = max u.x v.x := by
  rw [vstack, extend_x _ rfl]

lemma vstack_y (s : Int) (u v : Vec2i) :
    (vstack s u v).y = u.y + v.y + (if u.y ≠ 0 then s else 0) := by
  rw [vstack, extend_y _ rfl]

/-- C4 (amended): extending a group built from a fresh group by prior
additions of positive stacked-axis size (with nonnegative spacing) adds,
along the stacking axis, the addition plus spacing exactly when the
addition is not the first one, and takes the max along the cross axis.
(The code adds spacing when the accumulated stacked size is nonzero, so
the "not the first element" reading fails for zero-sized additions.) -/
theorem claim_C4_extend (vert : Bool) (al : Imgui.Alignment) (sp : Int) (idx : Nat)
    (prior : List Vec2i) (ext : Vec2i) (hsp : 0 ≤ sp)
    (hpos : ∀ v ∈ prior, 0 < stackVal vert v) :
    stackVal vert (((mkGroup vert al sp idx).extendList prior).extend ext).size
      = stackVal vert ((mkGroup vert al sp idx).extendList prior).size
        + stackVal vert ext + (if prior = [] then 0 else sp) ∧
    crossVal vert (((mkGroup vert al sp idx).extendList prior).extend ext).size
      = max (crossVal vert ((mkGroup vert al sp idx).extendList prior).size)
          (crossVal vert ext) := by
  have hv : ((mkGroup vert al sp idx).extendList prior).vertical = vert := by
    rw [extendList_vertical]; rfl
  have hs : ((mkGroup vert al sp idx).extendList prior).spacing = sp := by
    rw [extendList_spacing]; rfl
  constructor
  · have hx := extend_stack ((mkGroup vert al sp idx).extendList prior) ext
    rw [hv, hs] at hx
    rw [hx]
    congr 1
    cases prior with
    | nil =>
      rw [extendList_nil]
      have h0 : stackVal vert (mkGroup vert al sp idx).size = 0 := by
        cases vert <;> rfl
      rw [h0, if_neg (by omega), if_pos rfl]
    | cons v l =>
      have hpos' : 0 < stackVal vert ((mkGroup vert al sp idx).extendList (v :: l)).size := by
        rw [extendList_cons]
        have hv1 : ((mkGroup vert al sp idx).extend v).vertical = vert := rfl
        rw [← hv1]
        refine extendList_stack_pos l _ ?_ ?_ ?_
        · show 0 ≤ ((mkGroup vert al sp idx).extend v).spacing
          rw [extend_spacing]; exact hsp
        · intro w hw
          rw [hv1]
          exact hpos w (List.mem_cons_of_mem _ hw)
        · rw [hv1]
          have h3 := extend_stack (mkGroup vert al sp idx) v
          have hv0 : (mkGroup vert al sp idx).vertical = vert := rfl
          have h0 : stackVal vert (mkGroup vert al sp idx).size = 0 := by
            cases vert <;> rfl
          rw [hv0, h0] at h3
          rw [h3, if_neg (by omega)]
          have := hpos v (List.mem_cons_self v l)
          omega
      rw [if_pos (by omega), if_neg (by simp)]
  · have hc := extend_cross ((mkGroup vert al sp idx).extendList prior) ext
    rw [hv] at hc
    exact hc

/-- C4 counterexample: in a vertical group with spacing 7 whose first
addition had zero height, the second (hence not-first) addition gets no
spacing, contradicting the claim's "spacing whenever the addition is
not the first element". -/
theorem claim_C4_counterexample :
    ¬ (stackVal true (((mkGroup true .topleft 7 0).extendList [⟨5, 0⟩]).extend ⟨3, 4⟩).size
        = stackVal true ((mkGroup true .topleft 7 0).extendList [⟨5, 0⟩]).size
          + stackVal true (⟨3, 4⟩ : Vec2i) + 7) := by decide

/-- C4 witness: the amended statement evaluated at a concrete group. -/
theorem claim_C4_extend_witness :
    stackVal true (((mkGroup true .topleft 20 0).extendList [⟨3, 10⟩]).extend ⟨5, 7⟩).size
      = stackVal true ((mkGroup true .topleft 20 0).extendList [⟨3, 10⟩]).size
        + stackVal true (⟨5, 7⟩ : Vec2i)
        + (if ([⟨3, 10⟩] : List Vec2i) = [] then 0 else 20) ∧
    crossVal true (((mkGroup true .topleft 20 0).extendList [⟨3, 10⟩]).extend ⟨5, 7⟩).size
      = max (crossVal true ((mkGroup true .topleft 20 0).extendList [⟨3, 10⟩]).size)
          (crossVal true (⟨5, 7⟩ : Vec2i)) :=
  claim_C4_extend true .topleft 20 0 [⟨3, 10⟩] ⟨5, 7⟩ (by decide) (by decide)

/-- C5 (amended): stacking three sizes of positive height (nonnegative
spacing, nonnegative leading width) in an initially zero-size vertical
group gives stacked height `a.y + b.y + c.y + 2s` and cross-axis width
`max (a.x, b.x, c.x)`, and the pairwise stacking operation is
associative there; for zero-height additions the code inserts no
spacing and the total differs (see the counterexample). -/
theorem claim_C5_stacking (al : Imgui.Alignment) (idx : Nat) (s : Int)
    (a b c : Vec2i) (ha : 0 < a.y) (hb : 0 < b.y) (hc : 0 < c.y)
    (hs : 0 ≤ s) (hax : 0 ≤ a.x) :
    ((mkGroup true al s idx).extendList [a, b, c]).size
        = ⟨max a.x (max b.x c.x), a.y + b.y + c.y + 2 * s⟩ ∧
    vstack s (vstack s a b) c = vstack s a (vstack s b c) := by
  have hsp0 : (mkGroup true al s idx).spacing = s := rfl
  have hsp1 : ((mkGroup true al s idx).extend a).spacing = s := rfl
  have hsp2 : (((mkGroup true al s idx).extend a).extend b).spacing = s := rfl
  have hy1 : ((mkGroup true al s idx).extend a).size.y = a.y := by
    rw [extend_y _ rfl]
    show (0 : Int) + a.y + (if (0 : Int) ≠ 0 then s else 0) = a.y
    simp
  have hx1 : ((mkGroup true al s idx).extend a).size.x = a.x := by
    rw [extend_x _ rfl]
    show max 0 a.x = a.x
    exact max_eq_right hax
  have hy2 : (((mkGroup true al s idx).extend a).extend b).size.y
      = a.y + b.y + s := by
    rw [extend_y _ rfl, hy1, hsp1, if_pos (by omega)]
  have hx2 : (((mkGroup true al s idx).extend a).extend b).size.x
      = max a.x b.x := by
    rw [extend_x _ rfl, hx1]
  have hy3 : ((((mkGroup true al s idx).extend a).extend b).extend c).size.y
      = a.y + b.y + s + c.y + s := by
    rw [extend_y _ rfl, hy2, hsp2, if_pos (by omega)]
  have hx3 : ((((mkGroup true al s idx).extend a).extend b).extend c).size.x
      = max (max a.x b.x) c.x := by
    rw [extend_x _ rfl, hx2]
  constructor
  · show ((((mkGroup true al s idx).extend a).extend b).extend c).size = _
    refine vec2i_ext _ _ ?_ ?_
    · rw [hx3]
      show max (max a.x b.x) c.x = max a.x (max b.x c.x)
      exact max_assoc _ _ _
    · rw [hy3]
      show a.y + b.y + s + c.y + s = a.y + b.y + c.y + 2 * s
      omega
  · refine vec2i_ext _ _ ?_ ?_
    · rw [vstack_x, vstack_x, vstack_x, vstack_x]
      exact max_assoc _ _ _
    · rw [vstack_y, vstack_y, vstack_y, vstack_y]
      split_ifs <;> omega

/-- C5 counterexample: with spacing 20 and additions (0,0), (0,0),
(1,5), the claimed total stacked height `0 + 0 + 5 + 2·20 = 45` does
not hold — the code yields height 5 because spacing is only inserted
once the accumulated height is nonzero. -/
theorem claim_C5_counterexample :
    ¬ (((mkGroup true .topleft 20 0).extendList [⟨0, 0⟩, ⟨0, 0⟩, ⟨1, 5⟩]).size
        = ⟨1, 0 + 0 + 5 + 2 * 20⟩) := by decide

/-- C5 witness: the amended statement evaluated at concrete sizes. -/
theorem claim_C5_stacking_witness :
    ((mkGroup true .topleft 6 0).extendList [⟨2, 3⟩, ⟨9, 4⟩, ⟨4, 5⟩]).size
        = ⟨max 2 (max 9 4), 3 + 4 + 5 + 2 * 6⟩ ∧
    vstack 6 (vstack 6 ⟨2, 3⟩ ⟨9, 4⟩) ⟨4, 5⟩
        = vstack 6 ⟨2, 3⟩ (vstack 6 ⟨9, 4⟩ ⟨4, 5⟩) :=
  claim_C5_stacking .topleft 0 6 ⟨2, 3⟩ ⟨9, 4⟩ ⟨4, 5⟩ (by decide) (by decide)
    (by decide) (by decide) (by decide)

/-! ## Alignment offsets (C8) -/

lemma single_nth_same (dim : Fin 2) (a : Int) : (Vec2i.single dim a).nth dim = a := by
  fin_cases dim <;> rfl

lemma single_nth_other (dim : Fin 2) (a : Int) :
    (Vec2i.single dim a).nth (1 - dim) = 0 := by
  fin_cases dim <;> rfl

lemma nth_zero_vec (dim : Fin 2) : (⟨0, 0⟩ : Vec2i).nth dim = 0 := by
  fin_cases dim <;> rfl

/-- C8: the alignment offset on the selected axis is 0 for top/left,
the truncating half of the slack for center (shown on even slack 8 and
odd slacks 7 and −7), and the whole slack for bottom/right; the other
axis of the returned offset is always 0. -/
theorem claim_C8_align_dimension (align : Imgui.Alignment) (dim : Fin 2)
    (space : Vec2i) :
    (alignDimension align dim space).nth dim =
      (match align with
       | .topleft => 0
       | .center => Int.tdiv (space.nth dim) 2
       | .bottomright => space.nth dim) ∧
    (alignDimension align dim space).nth (1 - dim) = 0 ∧
    (alignDimension .center dim (⟨7, 7⟩ : Vec2i)).nth dim = 3 ∧
    (alignDimension .center dim (⟨-7, -7⟩ : Vec2i)).nth dim = -3 ∧
    (alignDimension .center dim (⟨8, 8⟩ : Vec2i)).nth dim = 4 := by
  refine ⟨?_, ?_, ?_, ?_, ?_⟩
  · cases align
    · exact nth_zero_vec dim
    · exact single_nth_same dim _
    · exact single_nth_same dim _
  · cases align
    · exact nth_zero_vec (1 - dim)
    · exact single_nth_other dim _
    · exact single_nth_other dim _
  · fin_cases dim <;> decide
  · fin_cases dim <;> decide
  · fin_cases dim <;> decide

/-! ## Button edge tracking (C10) -/

/-- C10: `Button::Update(down)` leaves `is_down = down`, sets
`went_down` exactly on an up-to-down transition and `went_up` exactly
on a down-to-up transition, and never clears either flag; hence over a
sequence of updates each flag is the previous flag or-ed with "the
corresponding edge occurred somewhere in the sequence" (so from a
per-frame reset of the flags, it holds iff the edge occurred). -/
theorem claim_C10_button_update :
    (∀ (b : Button) (down : Bool),
      (b.update down).is_down = down ∧
      (b.update down).went_down = (b.went_down || (!b.is_down && down)) ∧
      (b.update down).went_up = (b.went_up || (b.is_down && !down))) ∧
    (∀ (b : Button) (l : List Bool),
      (b.updates l).went_down = (b.went_down || hasDownEdge b.is_down l) ∧
      (b.updates l).went_up = (b.went_up || hasUpEdge b.is_down l) ∧
      (b.updates l).is_down = lastLevel b.is_down l) := by
  have hstep : ∀ (b : Button) (down : Bool),
      (b.update down).is_down = down ∧
      (b.update down).went_down = (b.went_down || (!b.is_down && down)) ∧
      (b.update down).went_up = (b.went_up || (b.is_down && !down)) := by
    intro b down
    cases b with
    | mk i gd gu => cases i <;> cases down <;> simp [Button.update]
  refine ⟨hstep, ?_⟩
  intro b l
  induction l generalizing b with
  | nil => simp [Button.updates, hasDownEdge, hasUpEdge, lastLevel]
  | cons d ds ih =>
    have h1 := hstep b d
    have hupd : Button.updates b (d :: ds) = Button.updates (b.update d) ds := rfl
    obtain ⟨hgd, hgu, hid⟩ := ih (b.update d)
    refine ⟨?_, ?_, ?_⟩
    · rw [hupd, hgd, h1.2.1, h1.1]
      show _ = (b.went_down || ((!b.is_down && d) || hasDownEdge d ds))
      rw [Bool.or_assoc]
    · rw [hupd, hgu, h1.2.2, h1.1]
      show _ = (b.went_up || ((b.is_down && !d) || hasUpEdge d ds))
      rw [Bool.or_assoc]
    · rw [hupd, hid, h1.1]
      rfl

/-! ## PositionUI and the pixel scale (C6) -/

/-- C6 counterexample: an engine whose window size is (200,200) given
`PositionUI` with canvas (100,100) and virtual resolution 1000 gets
pixel scale 1/5 (from the window), not the claimed
`min(canvas.x/res, canvas.y/res) = 1/10`. -/
theorem claim_C6_counterexample :
    ¬ (((initState ⟨200, 200⟩ 1000).positionUI ⟨100, 100⟩ 1000 .center .center).pixel_scale
        = min ((100 : ℚ) / 1000) ((100 : ℚ) / 1000)) := by
  intro h
  have h1 : ((initState ⟨200, 200⟩ 1000).positionUI ⟨100, 100⟩ 1000 .center .center).pixel_scale
      = Rat.divInt 1 5 := by decide
  have h2 : min ((100 : ℚ) / 1000) ((100 : ℚ) / 1000) = Rat.divInt 1 10 := by
    rw [min_self, Rat.divInt_eq_div]
    norm_num
  rw [h1, h2] at h
  exact absurd h (by decide)

/-- C6 (amended): a layout-pass `PositionUI` captures the canvas size
and virtual resolution, and recomputes the pixel scale from the
renderer's window size (not the captured canvas size) divided by the
captured virtual resolution; the claimed canvas-based formula holds
exactly when the canvas passed in equals the window size. -/
theorem claim_C6_position_ui_scale (s : State) (canvas : Vec2i) (vres : ℚ)
    (ah av : Imgui.Alignment) (hl : s.layout_pass = true) :
    (s.positionUI canvas vres ah av).canvas_size = canvas ∧
    (s.positionUI canvas vres ah av).virtual_resolution = vres ∧
    (s.positionUI canvas vres ah av).pixel_scale
      = min ((s.window_size.x : ℚ) / vres) ((s.window_size.y : ℚ) / vres) ∧
    (s.window_size = canvas →
      (s.positionUI canvas vres ah av).pixel_scale
        = min ((canvas.x : ℚ) / vres) ((canvas.y : ℚ) / vres)) := by
  have hset : setScale s.window_size vres
      = min ((s.window_size.x : ℚ) / vres) ((s.window_size.y : ℚ) / vres) := by
    rw [setScale, qmin_eq, qdiv_eq, qdiv_eq, intQ_eq, intQ_eq]
  unfold State.positionUI
  rw [if_pos hl]
  refine ⟨rfl, rfl, hset, ?_⟩
  intro hw
  rw [hset, hw]

/-- C6 witness: the amended statement evaluated at a concrete state. -/
theorem claim_C6_position_ui_scale_witness :
    ((initState ⟨300, 200⟩ 77).positionUI ⟨120, 90⟩ 60 .topleft .topleft).canvas_size
      = ⟨120, 90⟩ ∧
    ((initState ⟨300, 200⟩ 77).positionUI ⟨120, 90⟩ 60 .topleft .topleft).virtual_resolution
      = 60 ∧
    ((initState ⟨300, 200⟩ 77).positionUI ⟨120, 90⟩ 60 .topleft .topleft).pixel_scale
      = min (((initState ⟨300, 200⟩ 77).window_size.x : ℚ) / 60)
          (((initState ⟨300, 200⟩ 77).window_size.y : ℚ) / 60) ∧
    ((initState ⟨300, 200⟩ 77).window_size = ⟨120, 90⟩ →
      ((initState ⟨300, 200⟩ 77).positionUI ⟨120, 90⟩ 60 .topleft .topleft).pixel_scale
        = min (((⟨120, 90⟩ : Vec2i).x : ℚ) / 60) (((⟨120, 90⟩ : Vec2i).y : ℚ) / 60)) :=
  claim_C6_position_ui_scale (initState ⟨300, 200⟩ 77) ⟨120, 90⟩ 60 .topleft .topleft rfl

/-! ## The concrete two-pass scenario (C7) -/

/-- C7: for one vertical group with spacing 20 and three images of
virtual heights 50/40/30 backed by a 2:1 texture at pixel scale 1, the
layout pass caches sizes (100,50), (80,40), (60,30) with group size
(100,160), and the render pass draws them at (0,0), (0,70), (0,130). -/
theorem claim_C7_scenario :
    (initState ⟨1000, 1000⟩ 1000).pixel_scale = 1 ∧
    (runOps c7tex (initState ⟨1000, 1000⟩ 1000) c7script).map State.elements
      = some [⟨groupId, ⟨100, 160⟩⟩, ⟨"img", ⟨100, 50⟩⟩, ⟨"img", ⟨80, 40⟩⟩,
              ⟨"img", ⟨60, 30⟩⟩] ∧
    (runFull c7tex ⟨1000, 1000⟩ 1000 c7script).map State.draws
      = some [⟨⟨0, 0⟩, ⟨100, 50⟩⟩, ⟨⟨0, 70⟩, ⟨80, 40⟩⟩, ⟨⟨0, 130⟩, ⟨60, 30⟩⟩] :=
  ⟨by decide, by decide, by decide⟩

/-! ## NextElement (C1) -/

lemma findFirst_eq_some (id : String) (l : List Element) (j : Nat) (e : Element)
    (hj : l[j]? = some e) (he : e.id = id)
    (hmin : ∀ k ek, k < j → l[k]? = some ek → ek.id ≠ id) :
    findFirst id l = some (e, j) := by
  induction l generalizing j with
  | nil => simp at hj
  | cons x xs ih =>
    cases j with
    | zero =>
      simp only [List.getElem?_cons_zero, Option.some.injEq] at hj
      subst hj
      rw [findFirst, if_pos he]
    | succ k =>
      have hx : x.id ≠ id := hmin 0 x (Nat.succ_pos k) (by simp)
      rw [findFirst, if_neg hx,
          ih k (by simpa using hj)
            (fun m em hm hem => hmin (m + 1) em (by omega) (by simpa using hem))]
      rfl

lemma findFirst_eq_none (id : String) (l : List Element)
    (h : ∀ e ∈ l, e.id ≠ id) : findFirst id l = none := by
  induction l with
  | nil => rfl
  | cons x xs ih =>
    rw [findFirst, if_neg (h x (List.mem_cons_self x xs)),
        ih (fun e he => h e (List.mem_cons_of_mem _ he))]
    rfl

lemma nextElement_eq_some (es : List Element) (cur : Nat) (id : String)
    (j : Nat) (e : Element) (hcur : cur ≤ j) (hj : es[j]? = some e)
    (he : e.id = id)
    (hmin : ∀ k ek, cur ≤ k → k < j → es[k]? = some ek → ek.id ≠ id) :
    nextElement es cur id = some (e, j + 1) := by
  have hdrop : (es.drop cur)[j - cur]? = some e := by
    rw [List.getElem?_drop, Nat.add_sub_cancel' hcur]
    exact hj
  have hmin' : ∀ k ek, k < j - cur → (es.drop cur)[k]? = some ek → ek.id ≠ id := by
    intro k ek hk hek
    rw [List.getElem?_drop] at hek
    exact hmin (cur + k) ek (by omega) (by omega) hek
  rw [nextElement, findFirst_eq_some id _ (j - cur) e hdrop he hmin']
  show some (e, cur + (j - cur) + 1) = some (e, j + 1)
  have : cur + (j - cur) + 1 = j + 1 := by omega
  rw [this]

lemma nextElement_eq_none (es : List Element) (cur : Nat) (id : String)
    (h : ∀ j e, cur ≤ j → es[j]? = some e → e.id ≠ id) :
    nextElement es cur id = none := by
  rw [nextElement, findFirst_eq_none]
  · rfl
  · intro e he
    obtain ⟨n, hn⟩ := List.mem_iff_getElem?.mp he
    rw [List.getElem?_drop] at hn
    exact h (cur + n) e (by omega) hn

lemma nextElement_some_gt (es : List Element) (cur : Nat) (id : String)
    (e : Element) (it : Nat) (h : nextElement es cur id = some (e, it)) :
    cur < it := by
  rw [nextElement] at h
  cases hf : findFirst id (es.drop cur) with
  | none => rw [hf] at h; simp at h
  | some p =>
    rw [hf] at h
    cases p with
    | mk pe pk =>
      have h2 : it = cur + pk + 1 := by
        have := h.symm
        simp only [Option.map_some', Option.some.injEq, Prod.mk.injEq] at this
        omega
      omega

/-- C1: `NextElement(id)` returns the first cache entry at or after the
read cursor whose identity matches, leaving the cursor one past it
(skipping non-matching entries); when no entry from the cursor on
matches, it returns nothing and the cursor keeps its pre-call value.
In both cases the post-call cursor is at least the pre-call cursor, so
over any sequence of calls the cursor never moves backward. -/
theorem claim_C1_next_element (es : List Element) (cur : Nat) (id : String) :
    (∀ j e, cur ≤ j → es[j]? = some e → e.id = id →
       (∀ k ek, cur ≤ k → k < j → es[k]? = some ek → ek.id ≠ id) →
       nextElement es cur id = some (e, j + 1)) ∧
    ((∀ j e, cur ≤ j → es[j]? = some e → e.id ≠ id) →
       nextElement es cur id = none ∧ nextCursor es cur id = cur) ∧
    (∀ e it, nextElement es cur id = some (e, it) → cur < it) ∧
    cur ≤ nextCursor es cur id := by
  refine ⟨?_, ?_, ?_, ?_⟩
  · intro j e hcur hj he hmin
    exact nextElement_eq_some es cur id j e hcur hj he hmin
  · intro h
    have hn := nextElement_eq_none es cur id h
    refine ⟨hn, ?_⟩
    rw [nextCursor, hn]
  · intro e it h
    exact nextElement_some_gt es cur id e it h
  · rw [nextCursor]
    cases hne : nextElement es cur id with
    | none => exact le_refl cur
    | some p =>
      cases p with
      | mk e it => exact le_of_lt (nextElement_some_gt es cur id e it hne)

/-- C1 witness: a cache `[a, b]` read from cursor 0 with identity `b`
skips the non-matching entry and leaves the cursor at 2. -/
theorem claim_C1_next_element_witness :
    nextElement [⟨"a", ⟨1, 1⟩⟩, ⟨"b", ⟨2, 2⟩⟩] 0 "b"
      = some (⟨"b", ⟨2, 2⟩⟩, 2) :=
  (claim_C1_next_element [⟨"a", ⟨1, 1⟩⟩, ⟨"b", ⟨2, 2⟩⟩] 0 "b").1 1 ⟨"b", ⟨2, 2⟩⟩
    (by omega) (by decide) rfl
    (by
      intro k ek hk hkj hek
      have hk0 : k = 0 := by omega
      subst hk0
      simp only [List.getElem?_cons_zero, Option.some.injEq] at hek
      subst hek
      decide)

/-! ## Characterization of the engine steps (towards C2, C3, C9) -/

lemma step_image_none (tex : String → Option Vec2i) (s : State) (n : String)
    (y : ℚ) (ht : tex n = none) : step tex s (.image n y) = none := by
  simp [step, State.image, ht]

lemma step_image_layout (tex : String → Option Vec2i) (s : State) (n : String)
    (y : ℚ) (ts : Vec2i) (ht : tex n = some ts) (hl : s.layout_pass = true) :
    step tex s (.image n y) = some { s with
      elements := s.elements ++ [⟨n, computeImageSize ts y s.pixel_scale⟩],
      cur := s.cur.extend (computeImageSize ts y s.pixel_scale) } := by
  simp [step, State.image, ht, hl]

lemma step_image_render_hit (tex : String → Option Vec2i) (s : State)
    (n : String) (y : ℚ) (ts : Vec2i) (e : Element) (it : Nat)
    (ht : tex n = some ts) (hl : s.layout_pass = false)
    (hne : nextElement s.elements s.element_it n = some (e, it)) :
    step tex s (.image n y) = some { s with
      element_it := it,
      draws := s.draws ++ [⟨s.cur.positionOf e, e.size⟩],
      cur := s.cur.advance e.size } := by
  simp [step, State.image, ht, hl, hne]

lemma step_image_render_miss (tex : String → Option Vec2i) (s : State)
    (n : String) (y : ℚ) (ts : Vec2i) (ht : tex n = some ts)
    (hl : s.layout_pass = false)
    (hne : nextElement s.elements s.element_it n = none) :
    step tex s (.image n y) = some s := by
  simp [step, State.image, ht, hl, hne]

lemma step_startGroup_layout (tex : String → Option Vec2i) (s : State)
    (v : Bool) (a : Imgui.Alignment) (sp : Int) (hl : s.layout_pass = true) :
    step tex s (.startGroup v a sp) = some { s with
      group_stack := s.cur :: s.group_stack,
      elements := s.elements ++ [⟨groupId, ⟨0, 0⟩⟩],
      cur := ⟨v, a, sp, ⟨0, 0⟩, ⟨0, 0⟩, s.elements.length⟩ } := by
  simp [step, State.startGroup, hl]

lemma step_startGroup_render_hit (tex : String → Option Vec2i) (s : State)
    (v : Bool) (a : Imgui.Alignment) (sp : Int) (e : Element) (it : Nat)
    (hl : s.layout_pass = false)
    (hne : nextElement s.elements s.element_it groupId = some (e, it)) :
    step tex s (.startGroup v a sp) = some { s with
      group_stack := s.cur :: s.group_stack,
      element_it := it,
      cur := ⟨v, a, sp, e.size, s.cur.positionOf e, s.elements.length⟩ } := by
  simp [step, State.startGroup, hl, hne]

lemma step_startGroup_render_miss (tex : String → Option Vec2i) (s : State)
    (v : Bool) (a : Imgui.Alignment) (sp : Int) (hl : s.layout_pass = false)
    (hne : nextElement s.elements s.element_it groupId = none) :
    step tex s (.startGroup v a sp) = some { s with
      group_stack := s.cur :: s.group_stack,
      cur := ⟨v, a, sp, ⟨0, 0⟩, ⟨0, 0⟩, s.elements.length⟩ } := by
  simp [step, State.startGroup, hl, hne]

lemma step_endGroup_unbalanced (tex : String → Option Vec2i) (s : State)
    (h : s.group_stack = []) : step tex s .endGroup = none := by
  simp [step, State.endGroup, h]

lemma step_endGroup_layout (tex : String → Option Vec2i) (s : State)
    (parent : Group) (rest : List Group) (h : s.group_stack = parent :: rest)
    (hl : s.layout_pass = true) :
    step tex s .endGroup = some { s with
      cur := parent.extend s.cur.size,
      group_stack := rest,
      elements := setElemSize s.elements s.cur.element_idx s.cur.size } := by
  simp [step, State.endGroup, h, hl]

lemma step_endGroup_render (tex : String → Option Vec2i) (s : State)
    (parent : Group) (rest : List Group) (h : s.group_stack = parent :: rest)
    (hl : s.layout_pass = false) :
    step tex s .endGroup = some { s with
      cur := parent.advance s.cur.size,
      group_stack := rest } := by
  simp [step, State.endGroup, h, hl]

lemma step_positionUI_layout (tex : String → Option Vec2i) (s : State)
    (c : Vec2i) (r : ℚ) (ah av : Imgui.Alignment) (hl : s.layout_pass = true) :
    step tex s (.positionUI c r ah av) = some { s with
      canvas_size := c,
      virtual_resolution := r,
      pixel_scale := setScale s.window_size r } := by
  simp [step, State.positionUI, hl]

lemma step_positionUI_render (tex : String → Option Vec2i) (s : State)
    (c : Vec2i) (r : ℚ) (ah av : Imgui.Alignment) (hl : s.layout_pass = false) :
    step tex s (.positionUI c r ah av) = some { s with
      cur := { s.cur with position := (s.cur.position
        + alignDimension ah 0 (s.canvas_size - s.cur.size)
        + alignDimension av 1 (s.canvas_size - s.cur.size)) } } := by
  simp [step, State.positionUI, hl]

lemma setElemSize_map_id (l : List Element) (n : Nat) (sz : Vec2i) :
    (setElemSize l n sz).map Element.id = l.map Element.id := by
  induction l generalizing n with
  | nil => rfl
  | cons e es ih =>
    cases n with
    | zero => simp [setElemSize]
    | succ m => simp [setElemSize, ih]

lemma setElemSize_length (l : List Element) (n : Nat) (sz : Vec2i) :
    (setElemSize l n sz).length = l.length := by
  induction l generalizing n with
  | nil => rfl
  | cons e es ih =>
    cases n with
    | zero => simp [setElemSize]
    | succ m => simp [setElemSize, ih]

lemma step_elements_layout (tex : String → Option Vec2i) (s : State) (op : Op)
    (s' : State) (hl : s.layout_pass = true) (h : step tex s op = some s') :
    s'.elements.map Element.id
      = s.elements.map Element.id ++ (opDeclId op).toList ∧
    s'.layout_pass = true := by
  cases op with
  | image n y =>
    cases ht : tex n with
    | none => rw [step_image_none tex s n y ht] at h; exact absurd h (by simp)
    | some ts =>
      rw [step_image_layout tex s n y ts ht hl] at h
      have hs := Option.some.inj h
      subst hs
      simp [opDeclId, hl]
  | startGroup v a sp =>
    rw [step_startGroup_layout tex s v a sp hl] at h
    have hs := Option.some.inj h
    subst hs
    simp [opDeclId, hl]
  | endGroup =>
    cases hstack : s.group_stack with
    | nil => rw [step_endGroup_unbalanced tex s hstack] at h; exact absurd h (by simp)
    | cons parent rest =>
      rw [step_endGroup_layout tex s parent rest hstack hl] at h
      have hs := Option.some.inj h
      subst hs
      simp [opDeclId, setElemSize_map_id, hl]
  | positionUI c r ah av =>
    rw [step_positionUI_layout tex s c r ah av hl] at h
    have hs := Option.some.inj h
    subst hs
    simp [opDeclId, hl]

lemma step_elements_render (tex : String → Option Vec2i) (s : State) (op : Op)
    (s' : State) (hl : s.layout_pass = false) (h : step tex s op = some s') :
    s'.elements = s.elements ∧ s'.layout_pass = false := by
  cases op with
  | image n y =>
    cases ht : tex n with
    | none => rw [step_image_none tex s n y ht] at h; exact absurd h (by simp)
    | some ts =>
      cases hne : nextElement s.elements s.element_it n with
      | none =>
        rw [step_image_render_miss tex s n y ts ht hl hne] at h
        have hs := Option.some.inj h
        subst hs
        exact ⟨rfl, hl⟩
      | some p =>
        cases p with
        | mk e it =>
          rw [step_image_render_hit tex s n y ts e it ht hl hne] at h
          have hs := Option.some.inj h
          subst hs
          exact ⟨rfl, hl⟩
  | startGroup v a sp =>
    cases hne : nextElement s.elements s.element_it groupId with
    | none =>
      rw [step_startGroup_render_miss tex s v a sp hl hne] at h
      have hs := Option.some.inj h
      subst hs
      exact ⟨rfl, hl⟩
    | some p =>
      cases p with
      | mk e it =>
        rw [step_startGroup_render_hit tex s v a sp e it hl hne] at h
        have hs := Option.some.inj h
        subst hs
        exact ⟨rfl, hl⟩
  | endGroup =>
    cases hstack : s.group_stack with
    | nil => rw [step_endGroup_unbalanced tex s hstack] at h; exact absurd h (by simp)
    | cons parent rest =>
      rw [step_endGroup_render tex s parent rest hstack hl] at h
      have hs := Option.some.inj h
      subst hs
      exact ⟨rfl, hl⟩
  | positionUI c r ah av =>
    rw [step_positionUI_render tex s c r ah av hl] at h
    have hs := Option.some.inj h
    subst hs
    exact ⟨rfl, hl⟩

lemma runOps_cons (tex : String → Option Vec2i) (s : State) (op : Op)
    (ops : List Op) :
    runOps tex s (op :: ops)
      = match step tex s op with
        | none => none
        | some s1 => runOps tex s1 ops := rfl

lemma runOps_elements_layout (tex : String → Option Vec2i) (script : List Op) :
    ∀ (s s' : State), s.layout_pass = true → runOps tex s script = some s' →
      s'.elements.map Element.id
        = s.elements.map Element.id ++ script.filterMap opDeclId ∧
      s'.layout_pass = true := by
  induction script with
  | nil =>
    intro s s' hl h
    have hs := Option.some.inj h
    subst hs
    simp [hl]
  | cons op ops ih =>
    intro s s' hl h
    rw [runOps_cons] at h
    cases hstep : step tex s op with
    | none => rw [hstep] at h; exact absurd h (by simp)
    | some s1 =>
      rw [hstep] at h
      obtain ⟨h1, h2⟩ := step_elements_layout tex s op s1 hl hstep
      obtain ⟨h3, h4⟩ := ih s1 s' h2 h
      refine ⟨?_, h4⟩
      rw [h3, h1, List.filterMap_cons]
      cases hop : opDeclId op <;> simp

/-- C2: during the layout pass, each `Image` call appends exactly one
cache entry (its identity and computed pixel size), each `StartGroup`
appends exactly one placeholder entry (the reserved group identity,
zero size), `EndGroup` appends none (it only back-fills a size, keeping
length and identities), and no render-pass call changes the cache; over
a whole layout-pass script the cache identities equal the initial ones
followed by the declared identities in call order. -/
theorem claim_C2_layout_cache :
    (∀ (tex : String → Option Vec2i) (s : State) (n : String) (y : ℚ)
        (ts : Vec2i) (s' : State), s.layout_pass = true → tex n = some ts →
        step tex s (.image n y) = some s' →
        s'.elements = s.elements ++ [⟨n, computeImageSize ts y s.pixel_scale⟩]) ∧
    (∀ (tex : String → Option Vec2i) (s : State) (v : Bool)
        (a : Imgui.Alignment) (sp : Int) (s' : State), s.layout_pass = true →
        step tex s (.startGroup v a sp) = some s' →
        s'.elements = s.elements ++ [⟨groupId, ⟨0, 0⟩⟩]) ∧
    (∀ (tex : String → Option Vec2i) (s : State) (s' : State),
        s.layout_pass = true → step tex s .endGroup = some s' →
        s'.elements.map Element.id = s.elements.map Element.id ∧
        s'.elements.length = s.elements.length) ∧
    (∀ (tex : String → Option Vec2i) (s : State) (op : Op) (s' : State),
        s.layout_pass = false → step tex s op = some s' →
        s'.elements = s.elements) ∧
    (∀ (tex : String → Option Vec2i) (s : State) (script : List Op)
        (s' : State), s.layout_pass = true → runOps tex s script = some s' →
        s'.elements.map Element.id
          = s.elements.map Element.id ++ script.filterMap opDeclId) := by
  refine ⟨?_, ?_, ?_, ?_, ?_⟩
  · intro tex s n y ts s' hl ht h
    rw [step_image_layout tex s n y ts ht hl] at h
    have hs := Option.some.inj h
    subst hs
    rfl
  · intro tex s v a sp s' hl h
    rw [step_startGroup_layout tex s v a sp hl] at h
    have hs := Option.some.inj h
    subst hs
    rfl
  · intro tex s s' hl h
    cases hstack : s.group_stack with
    | nil => rw [step_endGroup_unbalanced tex s hstack] at h; exact absurd h (by simp)
    | cons parent rest =>
      rw [step_endGroup_layout tex s parent rest hstack hl] at h
      have hs := Option.some.inj h
      subst hs
      exact ⟨setElemSize_map_id _ _ _, setElemSize_length _ _ _⟩
  · intro tex s op s' hl h
    exact (step_elements_render tex s op s' hl h).1
  · intro tex s script s' hl h
    exact (runOps_elements_layout tex script s s' hl h).1

/-- C2 witness: one layout-pass `StartGroup` step appends exactly the
placeholder entry. -/
theorem claim_C2_layout_cache_witness :
    ((initState ⟨10, 10⟩ 100).startGroup true .topleft 0).elements
      = (initState ⟨10, 10⟩ 100).elements ++ [⟨groupId, ⟨0, 0⟩⟩] :=
  claim_C2_layout_cache.2.1 (fun _ => none) (initState ⟨10, 10⟩ 100) true
    .topleft 0 ((initState ⟨10, 10⟩ 100).startGroup true .topleft 0) rfl rfl

/-- C3: a render-pass `image` call whose identity matches no cache
entry at or after the read cursor leaves the whole state unchanged —
no draw call is recorded, the group cursor and the cache read cursor
keep their values — so any continuation behaves exactly as if the call
had not been made. -/
theorem claim_C3_render_miss_skips (tex : String → Option Vec2i) (s : State)
    (n : String) (y : ℚ) (ts : Vec2i) (ht : tex n = some ts)
    (hl : s.layout_pass = false)
    (hmiss : ∀ j e, s.element_it ≤ j → s.elements[j]? = some e → e.id ≠ n) :
    step tex s (.image n y) = some s ∧
    (∀ rest, runOps tex s (.image n y :: rest) = runOps tex s rest) := by
  have hne : nextElement s.elements s.element_it n = none :=
    nextElement_eq_none s.elements s.element_it n hmiss
  have h1 := step_image_render_miss tex s n y ts ht hl hne
  refine ⟨h1, ?_⟩
  intro rest
  rw [runOps_cons, h1]

/-- C3 witness: a concrete render-pass state whose cache holds only an
entry `a`; an `image` call for the undeclared identity `b` is a no-op. -/
theorem claim_C3_render_miss_skips_witness :
    step (fun _ => some ⟨2, 1⟩)
        { initState ⟨10, 10⟩ 100 with
            layout_pass := false, elements := [⟨"a", ⟨1, 1⟩⟩] }
        (.image "b" 5)
      = some { initState ⟨10, 10⟩ 100 with
            layout_pass := false, elements := [⟨"a", ⟨1, 1⟩⟩] } :=
  (claim_C3_render_miss_skips (fun _ => some ⟨2, 1⟩)
    { initState ⟨10, 10⟩ 100 with
        layout_pass := false, elements := [⟨"a", ⟨1, 1⟩⟩] }
    "b" 5 ⟨2, 1⟩ rfl rfl
    (by
      intro j e hj he
      cases j with
      | zero =>
        simp only [List.getElem?_cons_zero, Option.some.injEq] at he
        subst he
        decide
      | succ m => exact absurd he (by simp))).1

/-- C9: the layout-to-render transition reads `elements_[0]` with no
emptiness check. If the description procedure made at least one `Image`
or `StartGroup` call, the cache is nonempty and (with a balanced group
stack) the access is in bounds; a run whose script declares no element
leaves the cache empty and the access is out of bounds (modelled as
`none`). -/
theorem claim_C9_first_element (tex : String → Option Vec2i) (window : Vec2i)
    (vres : ℚ) (script : List Op) (s : State)
    (hrun : runOps tex (initState window vres) script = some s) :
    ((∃ op ∈ script, (opDeclId op).isSome) →
       s.elements ≠ [] ∧ (s.group_stack = [] → (s.startRenderPass).isSome)) ∧
    ((∀ op ∈ script, opDeclId op = none) →
       s.elements = [] ∧ s.startRenderPass = none) := by
  have hinit : (initState window vres).layout_pass = true := rfl
  obtain ⟨hmap, _⟩ :=
    runOps_elements_layout tex script (initState window vres) s hinit hrun
  have hmap' : s.elements.map Element.id = script.filterMap opDeclId := by
    simpa using hmap
  constructor
  · rintro ⟨op, hop, hsome⟩
    have hne : script.filterMap opDeclId ≠ [] := by
      intro hnil
      rw [List.filterMap_eq_nil_iff] at hnil
      rw [hnil op hop] at hsome
      simp at hsome
    have helems : s.elements ≠ [] := by
      intro h0
      rw [h0] at hmap'
      exact hne hmap'.symm
    refine ⟨helems, ?_⟩
    intro hstack
    cases hel : s.elements with
    | nil => exact absurd hel helems
    | cons e es => simp [State.startRenderPass, hstack, hel]
  · intro hall
    have hnil : script.filterMap opDeclId = [] := List.filterMap_eq_nil_iff.mpr hall
    have helems : s.elements = [] := by
      have hm : s.elements.map Element.id = [] := by rw [hmap', hnil]
      exact List.map_eq_nil_iff.mp hm
    refine ⟨helems, ?_⟩
    cases hstack : s.group_stack with
    | cons g gs => simp [State.startRenderPass, hstack]
    | nil => simp [State.startRenderPass, hstack, helems]

/-- C9 witness: after the layout pass of a script with one balanced
group, the cache is nonempty and the transition succeeds. -/
theorem claim_C9_first_element_witness :
    c9state.elements ≠ [] ∧ (c9state.startRenderPass).isSome :=
  have h := claim_C9_first_element c9tex ⟨8, 8⟩ 100 c9script c9state (by decide)
  ⟨(h.1 ⟨.startGroup true .topleft 0, by decide, by decide⟩).1,
   (h.1 ⟨.startGroup true .topleft 0, by decide, by decide⟩).2 (by decide)⟩
